import Mathlib

/-!
Shallow embedding of `src/VLSI24/submitted_notebooks/SJSystolicArray/src/python/canny.py`
(the `CannyFilter` module: gradient stage, magnitude/orientation stage,
non-maximum-suppression thinning stage, dual-threshold / hysteresis classifier).

Modelling conventions:
* tensors are modelled per batch element as `Plane H W := Fin H → Fin W → ℝ`
  (the batch dimension is pointwise-independent in the source, so a single
  batch element captures every claim);
* IEEE floating point is modelled by the reals; in particular the division
  `gy / gx` at `gx = 0` is Lean's real division (which yields `0`) rather than
  an infinity/NaN — every concrete input used below keeps `gx ≠ 0` so that the
  real model and the floating-point code agree on it;
* `nn.Conv2d` with `kernel_size = 3, padding = 1, bias = False` is the
  cross-correlation `conv3` below with zero padding at the borders;
* the bank of 8 directional thinning kernels is produced offline by OpenCV
  rotation calls; it is a precomputed constant table consumed by the core, so
  the thinning stage is parameterised by an arbitrary bank `dirK : Fin 8 → Kernel3`;
* the debug `write_to_pt_file` calls are I/O side channels with no effect on
  the returned tensors and are omitted.
-/

open Classical

/-- A single image plane of shape H×W with real-valued samples. -/
abbrev Plane (H W : ℕ) := Fin H → Fin W → ℝ

/-- A 3×3 convolution kernel. -/
abbrev Kernel3 := Fin 3 → Fin 3 → ℝ

/-- Read a plane at integer coordinates with zero padding outside the bounds
(the `padding = k // 2` zero-padding of `nn.Conv2d`). -/
def getPad {H W : ℕ} (p : Plane H W) (i j : ℤ) : ℝ :=
  if h : 0 ≤ i ∧ i < (H : ℤ) ∧ 0 ≤ j ∧ j < (W : ℤ) then
    p ⟨i.toNat, by omega⟩ ⟨j.toNat, by omega⟩
  else 0

/-- Same-size 3×3 cross-correlation with zero padding: the action of
`nn.Conv2d(kernel_size=3, padding=1, bias=False)` on one plane. -/
noncomputable def conv3 {H W : ℕ} (ker : Kernel3) (p : Plane H W) : Plane H W :=
  fun i j => ∑ a : Fin 3, ∑ b : Fin 3,
    ker a b * getPad p ((i : ℤ) + (a : ℤ) - 1) ((j : ℤ) + (b : ℤ) - 1)

/-- The 3×3 Sobel-x kernel produced by `get_sobel_kernel(3)`:
`x / (x² + y²)` on the grid `{-1,0,1}²`, with the middle column's denominator
forced to 1 to avoid division by zero. -/
noncomputable def sobelX : Kernel3 :=
  ![![-(1/2 : ℝ), 0, 1/2], ![-1, 0, 1], ![-(1/2), 0, 1/2]]

/-- The Sobel-y kernel: the transpose of `sobelX` (the code copies
`sobel_2D.T` into `sobel_filter_y`). -/
noncomputable def sobelY : Kernel3 := fun a b => sobelX b a

/-- The 3×3 hysteresis density kernel `np.ones((3, 3)) + 0.25`:
every weight equals 1.25. -/
noncomputable def hystKernel : Kernel3 := fun _ _ => 1.25

/-- Indicator of a proposition as a real number, modelling the implicit
bool-to-float casts of expressions like `low * 0.5` and `(...) * 1`. -/
noncomputable def ind (P : Prop) : ℝ := if P then 1 else 0

/-- Per-pixel gradient magnitude `(gx ** 2 + gy ** 2) ** 0.5`. -/
noncomputable def gradMagnitude (gx gy : ℝ) : ℝ := Real.sqrt (gx ^ 2 + gy ^ 2)

/-- Per-pixel quantized gradient direction, exactly as the source computes it:
`grad_orientation = torch.atan(grad_y / grad_x)`, then
`grad_orientation * (360 / np.pi) + 180`, then
`torch.round(grad_orientation / 45) * 45`. -/
noncomputable def gradOrient (gx gy : ℝ) : ℝ :=
  ((round ((Real.arctan (gy / gx) * (360 / Real.pi) + 180) / 45) : ℤ) : ℝ) * 45

/-- Floating-point modulus with the sign of the divisor, modelling the
`%` operator that torch applies to float tensors. -/
noncomputable def rmod (x y : ℝ) : ℝ := x - y * ⌊x / y⌋

/-- The per-pixel positive direction index `positive_idx = (grad_orientation / 45) % 8`
    (a float-valued index; torch `%` keeps the sign of the divisor). -/
noncomputable def positiveIdx {H W : ℕ} (orient : Plane H W) (i : Fin H) (j : Fin W) : ℝ :=
  rmod (orient i j / 45) 8

/-- The pass-`k` orientation test of the suppression loop:
`is_oriented_i = (positive_idx == pos_i) * 1 + (positive_idx == neg_i) * 1 > 0`
with `pos_i = k` and `neg_i = k + 4`. -/
def isOriented {H W : ℕ} (orient : Plane H W) (k : Fin 4) (i : Fin H) (j : Fin W) : Prop :=
  positiveIdx orient i j = (k : ℕ) ∨ positiveIdx orient i j = (k : ℕ) + 4

/-- The pass-`k` local-maximum test: the minimum of the responses of the
directional kernels `pos_i = k` and `neg_i = k + 4` over the magnitude plane
is strictly positive. -/
noncomputable def isMax {H W : ℕ} (dirK : Fin 8 → Kernel3) (mag : Plane H W)
    (k : Fin 4) (i : Fin H) (j : Fin W) : Prop :=
  min (conv3 (dirK ⟨(k : ℕ), by omega⟩) mag i j)
      (conv3 (dirK ⟨(k : ℕ) + 4, by omega⟩) mag i j) > 0

/-- One iteration of `for pos_i in range(4)`: zero out the pixels where
`to_remove = (is_max == 0) * 1 * (is_oriented_i) > 0`, leave the rest alone. -/
noncomputable def nmsPass {H W : ℕ} (dirK : Fin 8 → Kernel3) (mag orient : Plane H W)
    (k : Fin 4) (t : Plane H W) : Plane H W :=
  fun i j => if ¬ isMax dirK mag k i j ∧ isOriented orient k i j then 0 else t i j

/-- The thinning stage: `thin_edges = grad_magnitude.clone()` followed by the
four suppression passes, unrolled in loop order. -/
noncomputable def thinEdges {H W : ℕ} (dirK : Fin 8 → Kernel3)
    (mag orient : Plane H W) : Plane H W :=
  nmsPass dirK mag orient 3 (nmsPass dirK mag orient 2
    (nmsPass dirK mag orient 1 (nmsPass dirK mag orient 0 mag)))

/-- The dual-threshold classification `low * 0.5 + high * 0.5` computed from
the thin-edges plane when both thresholds are present. -/
noncomputable def dualThresh {H W : ℕ} (t : Plane H W) (lo hi : ℝ) : Plane H W :=
  fun i j => ind (t i j > lo) * 0.5 + ind (t i j > hi) * 0.5

/-- The threshold block at the end of `CannyFilter.forward` (the branch on
`low_threshold`, `high_threshold` and the `hysteresis` flag), applied to the
thin-edges plane `t`. When `low_threshold is None` the code leaves `t`
untouched, whatever `high_threshold` is. -/
noncomputable def threshStage {H W : ℕ} (t : Plane H W)
    (lo hi : Option ℝ) (hyst : Bool) : Plane H W :=
  match lo with
  | none => t
  | some l =>
    match hi with
    | none => fun i j => ind (t i j > l) * 1
    | some h =>
      if hyst then
        fun i j =>
          ind (t i j > h) * 1 +
            ind (conv3 hystKernel (dualThresh t l h) i j > 1) * ind (dualThresh t l h i j = 0.5) * 1
      else dualThresh t l h

/-- Spec-side formula for claim C1, written from the claim's words:
`round((atan(gy/gx) * 180/pi + 180) / 45) * 45`, taken mod 360. -/
noncomputable def specOrientC1 (gx gy : ℝ) : ℝ :=
  (((round ((Real.arctan (gy / gx) * (180 / Real.pi) + 180) / 45) * 45) % 360 : ℤ) : ℝ)

/-- The five planes returned by `CannyFilter.forward`. -/
structure CannyOutput (H W : ℕ) where
  gradX : Plane H W
  gradY : Plane H W
  gradMag : Plane H W
  orient : Plane H W
  thin : Plane H W

/-- `CannyFilter.forward` for one batch element: `img` has `C` channel planes;
`use_sa` selects the externally supplied (systolic-array) gradients
`gxsa, gysa` instead of the per-channel Sobel accumulation. Note that the
division `grad_x / C, grad_y / C` is applied on both branches. -/
noncomputable def forward {H W : ℕ} (C : ℕ) (img : Fin C → Plane H W)
    (lo hi : Option ℝ) (hyst : Bool) (use_sa : Bool)
    (gxsa gysa : Plane H W) (dirK : Fin 8 → Kernel3) : CannyOutput H W :=
  let gx0 : Plane H W :=
    if use_sa then gxsa else fun i j => ∑ c : Fin C, conv3 sobelX (img c) i j
  let gy0 : Plane H W :=
    if use_sa then gysa else fun i j => ∑ c : Fin C, conv3 sobelY (img c) i j
  let gx : Plane H W := fun i j => gx0 i j / (C : ℝ)
  let gy : Plane H W := fun i j => gy0 i j / (C : ℝ)
  let mag : Plane H W := fun i j => gradMagnitude (gx i j) (gy i j)
  let orient : Plane H W := fun i j => gradOrient (gx i j) (gy i j)
  ⟨gx, gy, mag, orient, threshStage (thinEdges dirK mag orient) lo hi hyst⟩

/-! ### Helper lemmas -/

lemma ind_pos {P : Prop} (h : P) : ind P = 1 := if_pos h

lemma ind_neg {P : Prop} (h : ¬P) : ind P = 0 := if_neg h

lemma ind_mem (P : Prop) : ind P = 0 ∨ ind P = 1 := by
  by_cases h : P
  · exact Or.inr (ind_pos h)
  · exact Or.inl (ind_neg h)

/-- Zero-padded reads of the all-zero plane are zero. -/
lemma getPad_zero {H W : ℕ} (i j : ℤ) :
    getPad (fun _ _ => (0 : ℝ) : Plane H W) i j = 0 := by
  unfold getPad
  split <;> rfl

/-- Correlating any kernel against the all-zero plane yields zero. -/
lemma conv3_zero {H W : ℕ} (ker : Kernel3) (i : Fin H) (j : Fin W) :
    conv3 ker (fun _ _ => (0 : ℝ)) i j = 0 := by
  unfold conv3
  simp [getPad_zero]

/-- The arctangent of a nonnegative real is at most that real. -/
lemma arctan_le_of_nonneg {y : ℝ} (hy : 0 ≤ y) : Real.arctan y ≤ y := by
  rcases lt_or_le y (Real.pi / 2) with h | h
  · calc Real.arctan y ≤ Real.arctan (Real.tan y) :=
        Real.arctan_strictMono.monotone (Real.le_tan hy h)
    _ = y := Real.arctan_tan (by linarith [Real.pi_pos]) h
  · exact le_trans (Real.arctan_lt_pi_div_two y).le h

/-- A zero-padded read at in-range coordinates returns the plane value. -/
lemma getPad_inbounds {H W : ℕ} (p : Plane H W) (i : Fin H) (j : Fin W) :
    getPad p (i : ℤ) (j : ℤ) = p i j := by
  unfold getPad
  rw [dif_pos ⟨Int.natCast_nonneg _, by exact_mod_cast i.isLt,
    Int.natCast_nonneg _, by exact_mod_cast j.isLt⟩]
  have h1 : (⟨((i : ℤ)).toNat, by omega⟩ : Fin H) = i := Fin.ext (by simp)
  have h2 : (⟨((j : ℤ)).toNat, by omega⟩ : Fin W) = j := Fin.ext (by simp)
  rw [h1, h2]

/-- Evaluate `round` from the two half-integer bounds. -/
lemma round_eq_of_bounds {x : ℝ} {n : ℤ} (h1 : (n : ℝ) ≤ x + 1 / 2)
    (h2 : x + 1 / 2 < (n : ℝ) + 1) : round x = n := by
  rw [round_eq, Int.floor_eq_iff]
  exact ⟨h1, by exact_mod_cast h2⟩

/-- The code's orientation at gradient pair (1, 1): the arctangent is π/4,
the degree remap gives 270, and rounding keeps it at 270. -/
lemma gradOrient_one_one : gradOrient 1 1 = 270 := by
  have hπ : Real.pi ≠ 0 := Real.pi_ne_zero
  have harg : (Real.arctan (1 / 1) * (360 / Real.pi) + 180) / 45 = 6 := by
    rw [show (1 : ℝ) / 1 = 1 by norm_num, Real.arctan_one]
    field_simp
    ring
  unfold gradOrient
  rw [harg, round_eq_of_bounds (n := 6) (by norm_num) (by norm_num)]
  norm_num

/-- The claim's formula at gradient pair (1, 1) evaluates to 225. -/
lemma specOrientC1_one_one : specOrientC1 1 1 = 225 := by
  have hπ : Real.pi ≠ 0 := Real.pi_ne_zero
  have harg : (Real.arctan (1 / 1) * (180 / Real.pi) + 180) / 45 = 5 := by
    rw [show (1 : ℝ) / 1 = 1 by norm_num, Real.arctan_one]
    field_simp
    ring
  unfold specOrientC1
  rw [harg, round_eq_of_bounds (n := 5) (by norm_num) (by norm_num)]
  norm_num

/-- A steep gradient pair drives the remapped angle above 337.5 degrees, so
rounding gives bin 8 and the code's orientation value is 360. -/
lemma gradOrient_one_thousand : gradOrient 1 1000 = 360 := by
  have hπ3 : (3 : ℝ) < Real.pi := Real.pi_gt_three
  have hπ : (0 : ℝ) < Real.pi := by linarith
  have hinv : Real.arctan ((1000 : ℝ)⁻¹) = Real.pi / 2 - Real.arctan 1000 :=
    Real.arctan_inv_of_pos (by norm_num)
  have hsmall : Real.arctan ((1000 : ℝ)⁻¹) ≤ (1000 : ℝ)⁻¹ :=
    arctan_le_of_nonneg (by norm_num)
  have hA1 : Real.arctan 1000 < Real.pi / 2 := Real.arctan_lt_pi_div_two _
  have hA2 : Real.pi / 2 - (1000 : ℝ)⁻¹ ≤ Real.arctan 1000 := by linarith
  have hBpos : (0 : ℝ) < 360 / Real.pi := by positivity
  have h180 : Real.pi / 2 * (360 / Real.pi) = 180 := by
    field_simp
    ring
  have hub : Real.arctan 1000 * (360 / Real.pi) < 180 := by
    have h3 := mul_lt_mul_of_pos_right hA1 hBpos
    linarith
  have hBlt : 360 / Real.pi < 120 := by
    rw [div_lt_iff₀ hπ]
    linarith
  have hlb : 179 < Real.arctan 1000 * (360 / Real.pi) := by
    have hmul := mul_le_mul_of_nonneg_right hA2 hBpos.le
    have hexpand : (Real.pi / 2 - (1000 : ℝ)⁻¹) * (360 / Real.pi)
        = 180 - (360 / Real.pi) / 1000 := by
      rw [sub_mul, h180]
      ring
    rw [hexpand] at hmul
    linarith
  unfold gradOrient
  rw [show (1000 : ℝ) / 1 = 1000 by norm_num,
    round_eq_of_bounds (n := 8) (by push_cast; linarith) (by push_cast; linarith)]
  norm_num

/-- Each pixel of the thinning stage output is either the original magnitude
value or zero: the four suppression passes only ever overwrite with zero. -/
lemma thinEdges_cases {H W : ℕ} (dirK : Fin 8 → Kernel3) (mag orient : Plane H W)
    (i : Fin H) (j : Fin W) :
    thinEdges dirK mag orient i j = mag i j ∨ thinEdges dirK mag orient i j = 0 := by
  simp only [thinEdges, nmsPass]
  split_ifs <;> simp

/-! ### Claims -/

/-- C1 (counterexample): at the gradient pair gx = gy = 1 the code's
orientation is 270 (factor 360/π) while the claim's formula
`round((atan(gy/gx)*180/π + 180)/45)*45 mod 360` gives 225, so the claimed
per-pixel equality fails. -/
theorem C1_cex : gradOrient 1 1 ≠ specOrientC1 1 1 := by
  rw [gradOrient_one_one, specOrientC1_one_one]
  norm_num

/-- C2 (counterexample): with C = 2 channels, external gradients enabled and
the supplied grad_x equal to the constant plane 2, the returned grad_x plane
holds 1 = 2 / C, not the supplied value 2: the supplied gradients are still
rescaled by the channel count. -/
theorem C2_cex :
    (forward (H := 1) (W := 1) 2 (fun _ _ _ => 0) none none false true
        (fun _ _ => 2) (fun _ _ => 0) (fun _ _ _ => 0)).gradX 0 0 = 1 ∧
      (1 : ℝ) ≠ 2 := by
  constructor
  · have h : (forward (H := 1) (W := 1) 2 (fun _ _ _ => 0) none none false true
        (fun _ _ => 2) (fun _ _ => 0) (fun _ _ _ => 0)).gradX 0 0
          = (2 : ℝ) / ((2 : ℕ) : ℝ) := rfl
    rw [h]
    norm_num
  · norm_num

/-- C2 (amended): when external gradients are supplied, the gradient
computation is skipped, but the returned gradient planes are the supplied
values divided by the channel count C (not the unmodified values), and the
magnitude and orientation planes are derived from these divided values. -/
theorem C2_thm {H W : ℕ} (C : ℕ) (img : Fin C → Plane H W) (lo hi : Option ℝ)
    (hyst : Bool) (gxsa gysa : Plane H W) (dirK : Fin 8 → Kernel3)
    (i : Fin H) (j : Fin W) :
    (forward C img lo hi hyst true gxsa gysa dirK).gradX i j = gxsa i j / (C : ℝ) ∧
    (forward C img lo hi hyst true gxsa gysa dirK).gradY i j = gysa i j / (C : ℝ) ∧
    (forward C img lo hi hyst true gxsa gysa dirK).gradMag i j
      = gradMagnitude (gxsa i j / (C : ℝ)) (gysa i j / (C : ℝ)) ∧
    (forward C img lo hi hyst true gxsa gysa dirK).orient i j
      = gradOrient (gxsa i j / (C : ℝ)) (gysa i j / (C : ℝ)) :=
  ⟨rfl, rfl, rfl, rfl⟩

/-- C5: when `low_threshold` is absent the threshold block passes the
thin-edges plane through unchanged whatever `high_threshold` is — the code
silently ignores `high_threshold` rather than failing with an
InvalidConfiguration condition as the spec requires. -/
theorem C5_thm {H W : ℕ} (t : Plane H W) (h : ℝ) (hyst : Bool) :
    threshStage t none (some h) hyst = t := rfl

/-- C6: every pixel of the thinning output equals the original magnitude or
zero, and a pixel that is not oriented in any of the 4 suppression passes
retains its full magnitude (only explicit suppression zeroes a pixel). -/
theorem C6_thm {H W : ℕ} (dirK : Fin 8 → Kernel3) (mag orient : Plane H W)
    (i : Fin H) (j : Fin W) :
    (thinEdges dirK mag orient i j = mag i j ∨ thinEdges dirK mag orient i j = 0) ∧
      ((∀ k : Fin 4, ¬ isOriented orient k i j) →
        thinEdges dirK mag orient i j = mag i j) := by
  refine ⟨thinEdges_cases dirK mag orient i j, ?_⟩
  intro h
  simp only [thinEdges, nmsPass]
  split_ifs with h3 h2 h1 h0
  · exact absurd h3.2 (h 3)
  · exact absurd h2.2 (h 2)
  · exact absurd h1.2 (h 1)
  · exact absurd h0.2 (h 0)
  · rfl

/-- C6 (witness): on a 1×1 plane with magnitude 5 and orientation 10, the
direction index is 2/9, which matches no pass, and the thinning output keeps
the magnitude 5. -/
theorem C6_wit :
    (∀ k : Fin 4, ¬ isOriented (fun _ _ => (10 : ℝ) : Plane 1 1) k 0 0) ∧
      thinEdges (fun _ _ _ => 0) (fun _ _ => 5 : Plane 1 1) (fun _ _ => 10) 0 0 = 5 := by
  have hidx : positiveIdx (fun _ _ => (10 : ℝ) : Plane 1 1) 0 0 = 2 / 9 := by
    unfold positiveIdx rmod
    rw [show (10 : ℝ) / 45 / 8 = 1 / 36 by norm_num,
      show ⌊(1 : ℝ) / 36⌋ = 0 by rw [Int.floor_eq_zero_iff]; constructor <;> norm_num]
    norm_num
  have hno : ∀ k : Fin 4, ¬ isOriented (fun _ _ => (10 : ℝ) : Plane 1 1) k 0 0 := by
    intro k
    unfold isOriented
    rw [hidx]
    fin_cases k <;> norm_num
  exact ⟨hno, (C6_thm (fun _ _ _ => 0) (fun _ _ => 5 : Plane 1 1) (fun _ _ => 10) 0 0).2 hno⟩

/-- C4 (counterexample): with low_threshold = 1 ≥ high_threshold = 0 and a
thin-edges pixel of value 1/2 (inside the band (hi, lo]), the dual-threshold
output at that pixel is 0.5 — so under lo ≥ hi the classification can still
contain 0.5 pixels, contradicting the claim. -/
theorem C4_cex :
    (0 : ℝ) ≤ 1 ∧
      threshStage (fun _ _ => 1 / 2 : Plane 1 1) (some 1) (some 0) false 0 0 = 0.5 ∧
      (0.5 : ℝ) ≠ 0 ∧ (0.5 : ℝ) ≠ 1 := by
  refine ⟨by norm_num, ?_, by norm_num, by norm_num⟩
  show ind ((1 : ℝ) / 2 > 1) * 0.5 + ind ((1 : ℝ) / 2 > 0) * 0.5 = 0.5
  rw [ind_neg (by norm_num), ind_pos (by norm_num)]
  norm_num

/-- C4 (amended): with both thresholds present, hysteresis off and
lo ≥ hi, every output pixel is 0, 0.5 or 1, and a pixel is 0.5 exactly when
its thin-edges value lies in the band (hi, lo]; the claimed absence of 0.5
pixels therefore holds only when no pixel value falls in that band (for
instance when lo = hi), not for every pair with lo ≥ hi. -/
theorem C4_thm {H W : ℕ} (t : Plane H W) (lo hi : ℝ) (hle : hi ≤ lo)
    (i : Fin H) (j : Fin W) :
    (threshStage t (some lo) (some hi) false i j = 0 ∨
     threshStage t (some lo) (some hi) false i j = 0.5 ∨
     threshStage t (some lo) (some hi) false i j = 1) ∧
    (threshStage t (some lo) (some hi) false i j = 0.5 ↔
      (hi < t i j ∧ ¬ lo < t i j)) := by
  by_cases hl : lo < t i j
  · have hh : hi < t i j := lt_of_le_of_lt hle hl
    have hv : threshStage t (some lo) (some hi) false i j = 1 := by
      show ind (t i j > lo) * 0.5 + ind (t i j > hi) * 0.5 = 1
      rw [ind_pos hl, ind_pos hh]
      norm_num
    rw [hv]
    refine ⟨Or.inr (Or.inr rfl), ?_, ?_⟩
    · intro h
      norm_num at h
    · rintro ⟨_, h2⟩
      exact absurd hl h2
  · by_cases hh : hi < t i j
    · have hv : threshStage t (some lo) (some hi) false i j = 0.5 := by
        show ind (t i j > lo) * 0.5 + ind (t i j > hi) * 0.5 = 0.5
        rw [ind_neg hl, ind_pos hh]
        norm_num
      rw [hv]
      exact ⟨Or.inr (Or.inl rfl), fun _ => ⟨hh, hl⟩, fun _ => rfl⟩
    · have hv : threshStage t (some lo) (some hi) false i j = 0 := by
        show ind (t i j > lo) * 0.5 + ind (t i j > hi) * 0.5 = 0
        rw [ind_neg hl, ind_neg hh]
        norm_num
      rw [hv]
      refine ⟨Or.inl rfl, ?_, ?_⟩
      · intro h
        norm_num at h
      · rintro ⟨h1, _⟩
        exact absurd h1 hh

/-- C4 (witness): the amended dual-threshold theorem instantiated at the
pixel value 1/2 with lo = 1, hi = 0. -/
theorem C4_wit :
    (0 : ℝ) ≤ 1 ∧
      ((threshStage (fun _ _ => 1 / 2 : Plane 1 1) (some 1) (some 0) false 0 0 = 0 ∨
        threshStage (fun _ _ => 1 / 2 : Plane 1 1) (some 1) (some 0) false 0 0 = 0.5 ∨
        threshStage (fun _ _ => 1 / 2 : Plane 1 1) (some 1) (some 0) false 0 0 = 1) ∧
       (threshStage (fun _ _ => 1 / 2 : Plane 1 1) (some 1) (some 0) false 0 0 = 0.5 ↔
         ((0 : ℝ) < 1 / 2 ∧ ¬ (1 : ℝ) < 1 / 2))) :=
  ⟨by norm_num, C4_thm (fun _ _ => 1 / 2 : Plane 1 1) 1 0 (by norm_num) 0 0⟩

/-- A pixel is classified strong (value 1) by the dual-threshold stage
exactly when its thin-edges value exceeds both thresholds. -/
lemma dualThresh_eq_one_iff {H W : ℕ} (t : Plane H W) (lo hi : ℝ)
    (i : Fin H) (j : Fin W) :
    threshStage t (some lo) (some hi) false i j = 1 ↔
      (lo < t i j ∧ hi < t i j) := by
  show ind (t i j > lo) * 0.5 + ind (t i j > hi) * 0.5 = 1 ↔ _
  by_cases hl : lo < t i j
  · by_cases hh : hi < t i j
    · rw [ind_pos hl, ind_pos hh]
      constructor
      · exact fun _ => ⟨hl, hh⟩
      · intro _
        norm_num
    · rw [ind_pos hl, ind_neg hh]
      constructor
      · intro h
        norm_num at h
      · rintro ⟨_, h⟩
        exact absurd h hh
  · by_cases hh : hi < t i j
    · rw [ind_neg hl, ind_pos hh]
      constructor
      · intro h
        norm_num at h
      · rintro ⟨h, _⟩
        exact absurd h hl
    · rw [ind_neg hl, ind_neg hh]
      constructor
      · intro h
        norm_num at h
      · rintro ⟨h, _⟩
        exact absurd h hl

/-- Count of pixels classified strong (exactly 1) by the dual-threshold
stage; this is the quantity the monotonicity claim compares. -/
noncomputable def strongCount {H W : ℕ} (t : Plane H W) (lo hi : ℝ) : ℕ :=
  (Finset.univ.filter (fun p : Fin H × Fin W =>
    threshStage t (some lo) (some hi) false p.1 p.2 = 1)).card

/-- C8: raising the high threshold (low threshold fixed) never increases the
number of strong-classified pixels. -/
theorem C8_thm {H W : ℕ} (t : Plane H W) (lo : ℝ) {h1 h2 : ℝ} (hle : h1 ≤ h2) :
    strongCount t lo h2 ≤ strongCount t lo h1 := by
  apply Finset.card_le_card
  intro p hp
  rw [Finset.mem_filter] at hp ⊢
  refine ⟨hp.1, ?_⟩
  obtain ⟨hlo, hh2⟩ := (dualThresh_eq_one_iff t lo h2 p.1 p.2).mp hp.2
  exact (dualThresh_eq_one_iff t lo h1 p.1 p.2).mpr ⟨hlo, lt_of_le_of_lt hle hh2⟩

/-- C8 (witness): the monotonicity theorem at the constant plane 5 with
lo = 0 and high thresholds 1 ≤ 2. -/
theorem C8_wit :
    (1 : ℝ) ≤ 2 ∧
      strongCount (fun _ _ => 5 : Plane 1 1) 0 2 ≤
        strongCount (fun _ _ => 5 : Plane 1 1) 0 1 :=
  ⟨by norm_num, C8_thm (fun _ _ => 5 : Plane 1 1) 0 (by norm_num)⟩

/-- C9 (counterexample): with low_threshold = 1 > high_threshold = 0,
hysteresis on and a 1×2 thin-edges plane of constant value 1/2, the pixel
(0,0) is simultaneously high and weak, its density 1.25 exceeds 1, and the
final output value is 2 — neither 0 nor 1, and not 1 even though the pixel's
thin-edges value strictly exceeds high_threshold only gives 1 plus the weak
promotion. -/
theorem C9_cex :
    threshStage (fun _ _ => 1 / 2 : Plane 1 2) (some 1) (some 0) true 0 0 = 2 ∧
      (2 : ℝ) ≠ 0 ∧ (2 : ℝ) ≠ 1 := by
  have hc : dualThresh (fun _ _ => 1 / 2 : Plane 1 2) 1 0 = fun _ _ => 0.5 := by
    funext i j
    show ind ((1 : ℝ) / 2 > 1) * 0.5 + ind ((1 : ℝ) / 2 > 0) * 0.5 = 0.5
    rw [ind_neg (by norm_num), ind_pos (by norm_num)]
    norm_num
  have hconv : conv3 hystKernel (dualThresh (fun _ _ => 1 / 2 : Plane 1 2) 1 0) 0 0
      = 1.25 := by
    rw [hc]
    norm_num [conv3, Fin.sum_univ_three, getPad, hystKernel]
  refine ⟨?_, by norm_num, by norm_num⟩
  show ind ((1 : ℝ) / 2 > 0) * 1 +
      ind (conv3 hystKernel (dualThresh (fun _ _ => 1 / 2 : Plane 1 2) 1 0) 0 0 > 1) *
        ind (dualThresh (fun _ _ => 1 / 2 : Plane 1 2) 1 0 0 0 = 0.5) * 1 = 2
  rw [hconv, hc, ind_pos (by norm_num), ind_pos (by norm_num), ind_pos rfl]
  norm_num

/-- C9 (amended): with both thresholds present, hysteresis enabled and
lo ≤ hi, the final output plane takes only values in {0, 1}, and every pixel
whose thin-edges value strictly exceeds high_threshold maps to exactly 1:
under this threshold ordering the high mask forces the classification value 1,
making the weak mask (value = 0.5) disjoint from it. -/
theorem C9_thm {H W : ℕ} (t : Plane H W) (lo hi : ℝ) (hle : lo ≤ hi)
    (i : Fin H) (j : Fin W) :
    (threshStage t (some lo) (some hi) true i j = 0 ∨
     threshStage t (some lo) (some hi) true i j = 1) ∧
    (hi < t i j → threshStage t (some lo) (some hi) true i j = 1) := by
  by_cases hh : hi < t i j
  · have hc1 : dualThresh t lo hi i j = 1 := by
      show ind (t i j > lo) * 0.5 + ind (t i j > hi) * 0.5 = 1
      rw [ind_pos (lt_of_le_of_lt hle hh), ind_pos hh]
      norm_num
    have hval : threshStage t (some lo) (some hi) true i j = 1 := by
      show ind (t i j > hi) * 1 +
          ind (conv3 hystKernel (dualThresh t lo hi) i j > 1) *
            ind (dualThresh t lo hi i j = 0.5) * 1 = 1
      rw [ind_pos hh, hc1, ind_neg (by norm_num : ¬((1 : ℝ) = 0.5))]
      ring
    rw [hval]
    exact ⟨Or.inr rfl, fun _ => rfl⟩
  · have hval : threshStage t (some lo) (some hi) true i j
        = ind (conv3 hystKernel (dualThresh t lo hi) i j > 1) *
            ind (dualThresh t lo hi i j = 0.5) := by
      show ind (t i j > hi) * 1 +
          ind (conv3 hystKernel (dualThresh t lo hi) i j > 1) *
            ind (dualThresh t lo hi i j = 0.5) * 1 = _
      rw [ind_neg hh]
      ring
    rw [hval]
    refine ⟨?_, fun h => absurd h hh⟩
    rcases ind_mem (conv3 hystKernel (dualThresh t lo hi) i j > 1) with h1 | h1 <;>
      rcases ind_mem (dualThresh t lo hi i j = 0.5) with h2 | h2 <;>
        rw [h1, h2] <;> norm_num

/-- C9 (witness): the amended hysteresis theorem at the constant plane 2 with
lo = 0 ≤ hi = 1 (a strong pixel: its final value is 1). -/
theorem C9_wit :
    (0 : ℝ) ≤ 1 ∧
      ((threshStage (fun _ _ => 2 : Plane 1 1) (some 0) (some 1) true 0 0 = 0 ∨
        threshStage (fun _ _ => 2 : Plane 1 1) (some 0) (some 1) true 0 0 = 1) ∧
       ((1 : ℝ) < 2 → threshStage (fun _ _ => 2 : Plane 1 1) (some 0) (some 1) true 0 0 = 1)) :=
  ⟨by norm_num, C9_thm (fun _ _ => 2 : Plane 1 1) 0 1 (by norm_num) 0 0⟩

/-- C10: under hysteresis, a weak pixel (above low, not above high) whose 8
neighbours in the classification plane are all 0 is not promoted: its density
is 1.25 · 0.5 = 0.625 ≤ 1, so its final output is 0. -/
theorem C10_thm {H W : ℕ} (t : Plane H W) (lo hi : ℝ) (i : Fin H) (j : Fin W)
    (hlo : lo < t i j) (hhi : ¬ hi < t i j)
    (hnb : ∀ a b : Fin 3, ¬(a = 1 ∧ b = 1) →
      getPad (dualThresh t lo hi) ((i : ℤ) + (a : ℤ) - 1) ((j : ℤ) + (b : ℤ) - 1) = 0) :
    threshStage t (some lo) (some hi) true i j = 0 := by
  have hc : dualThresh t lo hi i j = 0.5 := by
    show ind (t i j > lo) * 0.5 + ind (t i j > hi) * 0.5 = 0.5
    rw [ind_pos hlo, ind_neg hhi]
    norm_num
  have hone : ((1 : Fin 3) : ℤ) = 1 := rfl
  have hcenter : getPad (dualThresh t lo hi)
      ((i : ℤ) + ((1 : Fin 3) : ℤ) - 1) ((j : ℤ) + ((1 : Fin 3) : ℤ) - 1) = 0.5 := by
    have e1 : (i : ℤ) + ((1 : Fin 3) : ℤ) - 1 = (i : ℤ) := by rw [hone]; ring
    have e2 : (j : ℤ) + ((1 : Fin 3) : ℤ) - 1 = (j : ℤ) := by rw [hone]; ring
    rw [e1, e2, getPad_inbounds, hc]
  have hterm : ∀ a b : Fin 3,
      hystKernel a b *
          getPad (dualThresh t lo hi) ((i : ℤ) + (a : ℤ) - 1) ((j : ℤ) + (b : ℤ) - 1)
        = if a = 1 ∧ b = 1 then (1.25 : ℝ) * 0.5 else 0 := by
    intro a b
    by_cases hab : a = 1 ∧ b = 1
    · rw [if_pos hab, hab.1, hab.2, hcenter]
      rfl
    · rw [if_neg hab, hnb a b hab, mul_zero]
  have hconv : conv3 hystKernel (dualThresh t lo hi) i j = 1.25 * 0.5 := by
    unfold conv3
    simp only [hterm]
    norm_num [Fin.sum_univ_three, Fin.ext_iff]
  show ind (t i j > hi) * 1 +
      ind (conv3 hystKernel (dualThresh t lo hi) i j > 1) *
        ind (dualThresh t lo hi i j = 0.5) * 1 = 0
  rw [hconv, ind_neg hhi, ind_neg (by norm_num : ¬((1.25 : ℝ) * 0.5 > 1))]
  ring

/-- C10 (witness): a 1×1 plane with the single (necessarily isolated) pixel
value 1/2, thresholds 0.3 and 0.7: the weak pixel stays 0 under hysteresis. -/
theorem C10_wit :
    ((0.3 : ℝ) < 1 / 2 ∧ ¬ (0.7 : ℝ) < 1 / 2 ∧
      (∀ a b : Fin 3, ¬(a = 1 ∧ b = 1) →
        getPad (dualThresh (fun _ _ => 1 / 2 : Plane 1 1) 0.3 0.7)
          (((0 : Fin 1) : ℤ) + (a : ℤ) - 1) (((0 : Fin 1) : ℤ) + (b : ℤ) - 1) = 0)) ∧
      threshStage (fun _ _ => 1 / 2 : Plane 1 1) (some 0.3) (some 0.7) true 0 0 = 0 := by
  have hnb : ∀ a b : Fin 3, ¬(a = 1 ∧ b = 1) →
      getPad (dualThresh (fun _ _ => 1 / 2 : Plane 1 1) 0.3 0.7)
        (((0 : Fin 1) : ℤ) + (a : ℤ) - 1) (((0 : Fin 1) : ℤ) + (b : ℤ) - 1) = 0 := by
    intro a b hab
    fin_cases a <;> fin_cases b <;> simp_all [getPad]
  exact ⟨⟨by norm_num, by norm_num, hnb⟩,
    C10_thm (fun _ _ => 1 / 2 : Plane 1 1) 0.3 0.7 0 0 (by norm_num) (by norm_num) hnb⟩

/-- C7: on an all-zero input image with a nonnegative low threshold (and no
high threshold), the returned grad_x, grad_y, magnitude and final thresholded
edge planes are all zero at every pixel. -/
theorem C7_thm {H W : ℕ} (C : ℕ) (l : ℝ) (hl : 0 ≤ l) (dirK : Fin 8 → Kernel3)
    (i : Fin H) (j : Fin W) :
    (forward C (fun _ _ _ => 0) (some l) none false false (fun _ _ => 0)
        (fun _ _ => 0) dirK).gradX i j = 0 ∧
    (forward C (fun _ _ _ => 0) (some l) none false false (fun _ _ => 0)
        (fun _ _ => 0) dirK).gradY i j = 0 ∧
    (forward C (fun _ _ _ => 0) (some l) none false false (fun _ _ => 0)
        (fun _ _ => 0) dirK).gradMag i j = 0 ∧
    (forward C (fun _ _ _ => 0) (some l) none false false (fun _ _ => 0)
        (fun _ _ => 0) dirK).thin i j = 0 := by
  have hgx : ∀ (i : Fin H) (j : Fin W),
      (∑ c : Fin C, conv3 sobelX (fun _ _ => (0 : ℝ)) i j) / (C : ℝ) = 0 := by
    intro i j
    simp [conv3_zero]
  have hgy : ∀ (i : Fin H) (j : Fin W),
      (∑ c : Fin C, conv3 sobelY (fun _ _ => (0 : ℝ)) i j) / (C : ℝ) = 0 := by
    intro i j
    simp [conv3_zero]
  have hmag : ∀ (i : Fin H) (j : Fin W),
      gradMagnitude ((∑ c : Fin C, conv3 sobelX (fun _ _ => (0 : ℝ)) i j) / (C : ℝ))
        ((∑ c : Fin C, conv3 sobelY (fun _ _ => (0 : ℝ)) i j) / (C : ℝ)) = 0 := by
    intro i j
    rw [hgx, hgy]
    unfold gradMagnitude
    simp
  have key : ∀ (M O : Plane H W), M i j = 0 →
      threshStage (thinEdges dirK M O) (some l) none false i j = 0 := by
    intro M O hM
    show ind (thinEdges dirK M O i j > l) * 1 = 0
    have h0 : thinEdges dirK M O i j = 0 := by
      rcases thinEdges_cases dirK M O i j with hc | hc
      · rw [hc, hM]
      · exact hc
    rw [h0, ind_neg (not_lt.mpr hl), zero_mul]
  exact ⟨hgx i j, hgy i j, hmag i j, key _ _ (hmag i j)⟩

/-- C7 (witness): the zero-image theorem instantiated with one channel, a 1×1
plane, threshold 0 and the zero directional bank. -/
theorem C7_wit :
    (0 : ℝ) ≤ 0 ∧
      ((forward (H := 1) (W := 1) 1 (fun _ _ _ => 0) (some 0) none false false
          (fun _ _ => 0) (fun _ _ => 0) (fun _ _ _ => 0)).gradX 0 0 = 0 ∧
        (forward (H := 1) (W := 1) 1 (fun _ _ _ => 0) (some 0) none false false
          (fun _ _ => 0) (fun _ _ => 0) (fun _ _ _ => 0)).gradY 0 0 = 0 ∧
        (forward (H := 1) (W := 1) 1 (fun _ _ _ => 0) (some 0) none false false
          (fun _ _ => 0) (fun _ _ => 0) (fun _ _ _ => 0)).gradMag 0 0 = 0 ∧
        (forward (H := 1) (W := 1) 1 (fun _ _ _ => 0) (some 0) none false false
          (fun _ _ => 0) (fun _ _ => 0) (fun _ _ _ => 0)).thin 0 0 = 0) :=
  ⟨le_refl 0, C7_thm 1 0 (le_refl 0) (fun _ _ _ => 0) 0 0⟩

/-- C3 (counterexample): at the gradient pair gx = 1, gy = 1000 the code's
orientation value is 360, which is not one of the 8 canonical values
{0, 45, 90, 135, 180, 225, 270, 315}. -/
theorem C3_cex :
    gradOrient 1 1000 = 360 ∧
      (360 : ℝ) ∉ ({0, 45, 90, 135, 180, 225, 270, 315} : Set ℝ) := by
  refine ⟨gradOrient_one_thousand, ?_⟩
  norm_num

/-- C3 (amended): every orientation value produced by the code is an integer
multiple k·45 with 0 ≤ k ≤ 8 — nine possible values, since the remapped angle
lies in the open interval (0, 360) and rounding its 45-degree bin index can
reach both endpoints 0 and 8 (so the value 360, absent from the claimed
8-value set, can appear). -/
theorem C3_thm (gx gy : ℝ) :
    ∃ k : ℤ, 0 ≤ k ∧ k ≤ 8 ∧ gradOrient gx gy = (k : ℝ) * 45 := by
  have hπ : (0 : ℝ) < Real.pi := Real.pi_pos
  have h1 : Real.arctan (gy / gx) < Real.pi / 2 := Real.arctan_lt_pi_div_two _
  have h2 : -(Real.pi / 2) < Real.arctan (gy / gx) := Real.neg_pi_div_two_lt_arctan _
  have hBpos : (0 : ℝ) < 360 / Real.pi := by positivity
  have h180 : Real.pi / 2 * (360 / Real.pi) = 180 := by
    field_simp
    ring
  have hub : Real.arctan (gy / gx) * (360 / Real.pi) < 180 := by
    have h3 := mul_lt_mul_of_pos_right h1 hBpos
    linarith
  have hlb : -180 < Real.arctan (gy / gx) * (360 / Real.pi) := by
    have h3 := mul_lt_mul_of_pos_right h2 hBpos
    linarith
  refine ⟨round ((Real.arctan (gy / gx) * (360 / Real.pi) + 180) / 45), ?_, ?_, rfl⟩
  · rw [round_eq]
    exact Int.floor_nonneg.mpr (by linarith)
  · rw [round_eq]
    have h9 : ((Real.arctan (gy / gx) * (360 / Real.pi) + 180) / 45 + 1 / 2) < ((9 : ℤ) : ℝ) := by
      push_cast
      linarith
    have := Int.floor_lt.mpr h9
    omega

/-- C1 (amended): the orientation plane equals, per pixel,
`round((atan(gy/gx) * (180/π) * 2 + 180)/45) * 45` — the remap multiplies the
arctangent by twice 180/π (i.e. 360/π), and no mod-360 reduction is applied
to the quantized result. -/
theorem C1_thm (gx gy : ℝ) :
    gradOrient gx gy =
      ((round ((Real.arctan (gy / gx) * (180 / Real.pi) * 2 + 180) / 45) : ℤ) : ℝ) * 45 := by
  unfold gradOrient
  have h : (Real.arctan (gy / gx) * (360 / Real.pi) + 180) / 45
      = (Real.arctan (gy / gx) * (180 / Real.pi) * 2 + 180) / 45 := by ring
  rw [h]
